import Mathlib

/-!
Verification of the Greek gematria core of the STEPBible TAGNT-TR import
script (scripts/import.ts).  Strings are modelled as lists of Unicode code
points (JS for..of iteration and String.prototype.normalize both operate on
code points).  The table lookups GREEK_VALUES[char] / GREEK_ORDINAL[char]
are modelled by association-list lookup returning Option.  The NFD
normalization step is modelled by a per-code-point canonical-decomposition
table covering the Greek repertoire handled by the script (fully decomposed,
in canonical combining-class order, exactly as the Unicode NFD of each
character); code points without a canonical decomposition map to themselves.
String.prototype.toLowerCase is modelled per code point by a lowercase table
over the Greek and basic Latin letters.
-/

namespace StepBibleTR

set_option maxHeartbeats 2000000
set_option maxRecDepth 8192

/-- Association-list lookup modelling the JS record access TABLE[char]:
some value when the key is present, none otherwise. -/
def tableLookup {α : Type} : List (Char × α) → Char → Option α
  | [], _ => none
  | (k, v) :: rest, c => if k = c then some v else tableLookup rest c

/-- GREEK_VALUES from scripts/import.ts lines 39 to 43: standard isopsephy
values, with medial sigma and final sigma both 200 and the archaic numeral
letters stigma, koppa and sampi at 6, 90 and 900. -/
def GREEK_VALUES : List (Char × Nat) :=
  [('α', 1), ('β', 2), ('γ', 3), ('δ', 4), ('ε', 5),
   ('ϛ', 6), ('ζ', 7), ('η', 8), ('θ', 9),
   ('ι', 10), ('κ', 20), ('λ', 30), ('μ', 40), ('ν', 50),
   ('ξ', 60), ('ο', 70), ('π', 80), ('ϟ', 90),
   ('ρ', 100), ('σ', 200), ('ς', 200), ('τ', 300), ('υ', 400),
   ('φ', 500), ('χ', 600), ('ψ', 700), ('ω', 800), ('ϡ', 900)]

/-- GREEK_ORDINAL from scripts/import.ts lines 45 to 49: 1-based alphabet
positions 1..24, with medial and final sigma sharing 18. -/
def GREEK_ORDINAL : List (Char × Nat) :=
  [('α', 1), ('β', 2), ('γ', 3), ('δ', 4), ('ε', 5),
   ('ζ', 6), ('η', 7), ('θ', 8),
   ('ι', 9), ('κ', 10), ('λ', 11), ('μ', 12), ('ν', 13),
   ('ξ', 14), ('ο', 15), ('π', 16),
   ('ρ', 17), ('σ', 18), ('ς', 18), ('τ', 19), ('υ', 20),
   ('φ', 21), ('χ', 22), ('ψ', 23), ('ω', 24)]

/-- Full canonical decompositions (Unicode NFD) of the Greek repertoire,
each value written fully decomposed and in canonical combining-class order,
so applying this map code-point-wise models String.prototype.normalize with
argument NFD on Greek text. -/
def decompTable : List (Char × List Char) :=
  -- Greek and Coptic block first, then Greek Extended
  [('Ά', ['Α', '́']),                     -- Ά
   ('Έ', ['Ε', '́']),                     -- Έ
   ('Ή', ['Η', '́']),                     -- Ή
   ('Ί', ['Ι', '́']),                     -- Ί
   ('Ό', ['Ο', '́']),                     -- Ό
   ('Ύ', ['Υ', '́']),                     -- Ύ
   ('Ώ', ['Ω', '́']),                     -- Ώ
   ('ΐ', ['ι', '̈', '́']),           -- ΐ
   ('Ϊ', ['Ι', '̈']),                     -- Ϊ
   ('Ϋ', ['Υ', '̈']),                     -- Ϋ
   ('ά', ['α', '́']),                     -- ά
   ('έ', ['ε', '́']),                     -- έ
   ('ή', ['η', '́']),                     -- ή
   ('ί', ['ι', '́']),                     -- ί
   ('ΰ', ['υ', '̈', '́']),           -- ΰ
   ('ϊ', ['ι', '̈']),                     -- ϊ
   ('ϋ', ['υ', '̈']),                     -- ϋ
   ('ό', ['ο', '́']),                     -- ό
   ('ύ', ['υ', '́']),                     -- ύ
   ('ώ', ['ω', '́']),                     -- ώ
   -- combining marks that themselves decompose
   ('̀', ['̀']),
   ('́', ['́']),
   ('̓', ['̓']),
   ('̈́', ['̈', '́']),
   -- Greek Extended: alpha with breathings and accents
   ('ἀ', ['α', '̓']),                     -- ἀ
   ('ἁ', ['α', '̔']),                     -- ἁ
   ('ἂ', ['α', '̓', '̀']),           -- ἂ
   ('ἃ', ['α', '̔', '̀']),           -- ἃ
   ('ἄ', ['α', '̓', '́']),           -- ἄ
   ('ἅ', ['α', '̔', '́']),           -- ἅ
   ('ἆ', ['α', '̓', '͂']),           -- ἆ
   ('ἇ', ['α', '̔', '͂']),           -- ἇ
   -- epsilon
   ('ἐ', ['ε', '̓']),                     -- ἐ
   ('ἑ', ['ε', '̔']),                     -- ἑ
   ('ἒ', ['ε', '̓', '̀']),           -- ἒ
   ('ἓ', ['ε', '̔', '̀']),           -- ἓ
   ('ἔ', ['ε', '̓', '́']),           -- ἔ
   ('ἕ', ['ε', '̔', '́']),           -- ἕ
   -- eta
   ('ἠ', ['η', '̓']),                     -- ἠ
   ('ἡ', ['η', '̔']),                     -- ἡ
   ('ἢ', ['η', '̓', '̀']),           -- ἢ
   ('ἣ', ['η', '̔', '̀']),           -- ἣ
   ('ἤ', ['η', '̓', '́']),           -- ἤ
   ('ἥ', ['η', '̔', '́']),           -- ἥ
   ('ἦ', ['η', '̓', '͂']),           -- ἦ
   ('ἧ', ['η', '̔', '͂']),           -- ἧ
   -- iota
   ('ἰ', ['ι', '̓']),                     -- ἰ
   ('ἱ', ['ι', '̔']),                     -- ἱ
   ('ἲ', ['ι', '̓', '̀']),           -- ἲ
   ('ἳ', ['ι', '̔', '̀']),           -- ἳ
   ('ἴ', ['ι', '̓', '́']),           -- ἴ
   ('ἵ', ['ι', '̔', '́']),           -- ἵ
   ('ἶ', ['ι', '̓', '͂']),           -- ἶ
   ('ἷ', ['ι', '̔', '͂']),           -- ἷ
   -- omicron
   ('ὀ', ['ο', '̓']),                     -- ὀ
   ('ὁ', ['ο', '̔']),                     -- ὁ
   ('ὂ', ['ο', '̓', '̀']),           -- ὂ
   ('ὃ', ['ο', '̔', '̀']),           -- ὃ
   ('ὄ', ['ο', '̓', '́']),           -- ὄ
   ('ὅ', ['ο', '̔', '́']),           -- ὅ
   -- upsilon
   ('ὐ', ['υ', '̓']),                     -- ὐ
   ('ὑ', ['υ', '̔']),                     -- ὑ
   ('ὒ', ['υ', '̓', '̀']),           -- ὒ
   ('ὓ', ['υ', '̔', '̀']),           -- ὓ
   ('ὔ', ['υ', '̓', '́']),           -- ὔ
   ('ὕ', ['υ', '̔', '́']),           -- ὕ
   ('ὖ', ['υ', '̓', '͂']),           -- ὖ
   ('ὗ', ['υ', '̔', '͂']),           -- ὗ
   -- omega
   ('ὠ', ['ω', '̓']),                     -- ὠ
   ('ὡ', ['ω', '̔']),                     -- ὡ
   ('ὢ', ['ω', '̓', '̀']),           -- ὢ
   ('ὣ', ['ω', '̔', '̀']),           -- ὣ
   ('ὤ', ['ω', '̓', '́']),           -- ὤ
   ('ὥ', ['ω', '̔', '́']),           -- ὥ
   ('ὦ', ['ω', '̓', '͂']),           -- ὦ
   ('ὧ', ['ω', '̔', '͂']),           -- ὧ
   -- vowels with varia or oxia
   ('ὰ', ['α', '̀']),                     -- ὰ
   ('ά', ['α', '́']),                     -- ά
   ('ὲ', ['ε', '̀']),                     -- ὲ
   ('έ', ['ε', '́']),                     -- έ
   ('ὴ', ['η', '̀']),                     -- ὴ
   ('ή', ['η', '́']),                     -- ή
   ('ὶ', ['ι', '̀']),                     -- ὶ
   ('ί', ['ι', '́']),                     -- ί
   ('ὸ', ['ο', '̀']),                     -- ὸ
   ('ό', ['ο', '́']),                     -- ό
   ('ὺ', ['υ', '̀']),                     -- ὺ
   ('ύ', ['υ', '́']),                     -- ύ
   ('ὼ', ['ω', '̀']),                     -- ὼ
   ('ώ', ['ω', '́']),                     -- ώ
   -- alpha with breathings, accents and iota subscript
   ('ᾀ', ['α', '̓', 'ͅ']),           -- ᾀ
   ('ᾁ', ['α', '̔', 'ͅ']),           -- ᾁ
   ('ᾂ', ['α', '̓', '̀', 'ͅ']), -- ᾂ
   ('ᾃ', ['α', '̔', '̀', 'ͅ']), -- ᾃ
   ('ᾄ', ['α', '̓', '́', 'ͅ']), -- ᾄ
   ('ᾅ', ['α', '̔', '́', 'ͅ']), -- ᾅ
   ('ᾆ', ['α', '̓', '͂', 'ͅ']), -- ᾆ
   ('ᾇ', ['α', '̔', '͂', 'ͅ']), -- ᾇ
   -- eta with breathings, accents and iota subscript
   ('ᾐ', ['η', '̓', 'ͅ']),           -- ᾐ
   ('ᾑ', ['η', '̔', 'ͅ']),           -- ᾑ
   ('ᾒ', ['η', '̓', '̀', 'ͅ']), -- ᾒ
   ('ᾓ', ['η', '̔', '̀', 'ͅ']), -- ᾓ
   ('ᾔ', ['η', '̓', '́', 'ͅ']), -- ᾔ
   ('ᾕ', ['η', '̔', '́', 'ͅ']), -- ᾕ
   ('ᾖ', ['η', '̓', '͂', 'ͅ']), -- ᾖ
   ('ᾗ', ['η', '̔', '͂', 'ͅ']), -- ᾗ
   -- omega with breathings, accents and iota subscript
   ('ᾠ', ['ω', '̓', 'ͅ']),           -- ᾠ
   ('ᾡ', ['ω', '̔', 'ͅ']),           -- ᾡ
   ('ᾢ', ['ω', '̓', '̀', 'ͅ']), -- ᾢ
   ('ᾣ', ['ω', '̔', '̀', 'ͅ']), -- ᾣ
   ('ᾤ', ['ω', '̓', '́', 'ͅ']), -- ᾤ
   ('ᾥ', ['ω', '̔', '́', 'ͅ']), -- ᾥ
   ('ᾦ', ['ω', '̓', '͂', 'ͅ']), -- ᾦ
   ('ᾧ', ['ω', '̔', '͂', 'ͅ']), -- ᾧ
   -- remaining alpha, eta, iota, upsilon, rho, omega forms
   ('ᾲ', ['α', '̀', 'ͅ']),           -- ᾲ
   ('ᾳ', ['α', 'ͅ']),                     -- ᾳ
   ('ᾴ', ['α', '́', 'ͅ']),           -- ᾴ
   ('ᾶ', ['α', '͂']),                     -- ᾶ
   ('ᾷ', ['α', '͂', 'ͅ']),           -- ᾷ
   ('ῂ', ['η', '̀', 'ͅ']),           -- ῂ
   ('ῃ', ['η', 'ͅ']),                     -- ῃ
   ('ῄ', ['η', '́', 'ͅ']),           -- ῄ
   ('ῆ', ['η', '͂']),                     -- ῆ
   ('ῇ', ['η', '͂', 'ͅ']),           -- ῇ
   ('ῒ', ['ι', '̈', '̀']),           -- ῒ
   ('ΐ', ['ι', '̈', '́']),           -- ΐ
   ('ῖ', ['ι', '͂']),                     -- ῖ
   ('ῗ', ['ι', '̈', '͂']),           -- ῗ
   ('ῢ', ['υ', '̈', '̀']),           -- ῢ
   ('ΰ', ['υ', '̈', '́']),           -- ΰ
   ('ῤ', ['ρ', '̓']),                     -- ῤ
   ('ῥ', ['ρ', '̔']),                     -- ῥ
   ('ῦ', ['υ', '͂']),                     -- ῦ
   ('ῧ', ['υ', '̈', '͂']),           -- ῧ
   ('ῲ', ['ω', '̀', 'ͅ']),           -- ῲ
   ('ῳ', ['ω', 'ͅ']),                     -- ῳ
   ('ῴ', ['ω', '́', 'ͅ']),           -- ῴ
   ('ῶ', ['ω', '͂']),                     -- ῶ
   ('ῷ', ['ω', '͂', 'ͅ'])]           -- ῷ

/-- Lowercase mapping modelling String.prototype.toLowerCase per code point
on the letters in scope: Greek capitals, the archaic numeral capitals, and
basic Latin capitals. -/
def lowerTable : List (Char × Char) :=
  [('Α', 'α'), ('Β', 'β'), ('Γ', 'γ'), ('Δ', 'δ'),
   ('Ε', 'ε'), ('Ζ', 'ζ'), ('Η', 'η'), ('Θ', 'θ'),
   ('Ι', 'ι'), ('Κ', 'κ'), ('Λ', 'λ'), ('Μ', 'μ'),
   ('Ν', 'ν'), ('Ξ', 'ξ'), ('Ο', 'ο'), ('Π', 'π'),
   ('Ρ', 'ρ'), ('Σ', 'σ'), ('Τ', 'τ'), ('Υ', 'υ'),
   ('Φ', 'φ'), ('Χ', 'χ'), ('Ψ', 'ψ'), ('Ω', 'ω'),
   ('Ϛ', 'ϛ'), ('Ϟ', 'ϟ'), ('Ϡ', 'ϡ'),
   ('A', 'a'), ('B', 'b'), ('C', 'c'), ('D', 'd'), ('E', 'e'), ('F', 'f'), ('G', 'g'),
   ('H', 'h'), ('I', 'i'), ('J', 'j'), ('K', 'k'), ('L', 'l'), ('M', 'm'), ('N', 'n'),
   ('O', 'o'), ('P', 'p'), ('Q', 'q'), ('R', 'r'), ('S', 's'), ('T', 't'), ('U', 'u'),
   ('V', 'v'), ('W', 'w'), ('X', 'x'), ('Y', 'y'), ('Z', 'z')]

/-- The combining iota subscript code point U+0345. -/
def iotaSubscript : Char := 'ͅ'

/-- Canonical decomposition of one code point: its table entry when present,
itself otherwise. -/
def nfdChar (c : Char) : List Char := (tableLookup decompTable c).getD [c]

/-- NFD normalization step of normalizeGreek, applied code-point-wise. -/
def nfd (s : List Char) : List Char := (s.map nfdChar).flatten

/-- The replace step of normalizeGreek: every U+0345 becomes a plain iota. -/
def replaceIota (s : List Char) : List Char :=
  s.map (fun c => if c = iotaSubscript then 'ι' else c)

/-- Membership in the combining diacritical marks block, the character class
of the regex stripping pass in normalizeGreek. -/
def isCombining (c : Char) : Bool := decide (0x300 ≤ c.toNat ∧ c.toNat ≤ 0x36F)

/-- The stripping pass of normalizeGreek: remove every code point in the
combining diacritical marks block. -/
def stripMarks (s : List Char) : List Char := s.filter (fun c => !(isCombining c))

/-- One code point of the final toLowerCase step. -/
def lowerChar (c : Char) : Char := (tableLookup lowerTable c).getD c

/-- The final toLowerCase step of normalizeGreek, applied code-point-wise. -/
def toLowerStr (s : List Char) : List Char := s.map lowerChar

/-- normalizeGreek from scripts/import.ts lines 81 to 90: NFD, then replace
U+0345 by iota, then strip the combining-marks block, then lowercase. -/
def normalizeGreek (s : List Char) : List Char :=
  toLowerStr (stripMarks (replaceIota (nfd s)))

/-- Inner while loop of the reduced computation in computeGreek
(while val greater than 0, accumulate val mod 10 and divide by 10), with a
fuel argument bounding the number of iterations; a value has at most as many
decimal digits as its own magnitude, so fuel equal to the starting value is
always enough. -/
def digitSumGo : Nat → Nat → Nat → Nat
  | 0, _, acc => acc
  | fuel + 1, val, acc =>
    if val = 0 then acc else digitSumGo fuel (val / 10) (acc + val % 10)

/-- Sum of the base-10 digits of a number, as computed by the inner while
loop of computeGreek. -/
def digitSum (n : Nat) : Nat := digitSumGo n n 0

/-- Outer while loop of the reduced computation in computeGreek (while val
greater than 9, replace val by its digit sum), again fueled; each pass
strictly decreases a value above 9, so fuel equal to the starting value is
always enough. -/
def digitRootGo : Nat → Nat → Nat
  | 0, val => val
  | fuel + 1, val => if val > 9 then digitRootGo fuel (digitSum val) else val

/-- Repeated digit summing down to a single digit, as computed by the while
loops of computeGreek on each ordinal value. -/
def digitRoot (n : Nat) : Nat := digitRootGo n n

/-- The gematria record returned by computeGreek: the three keys standard,
ordinal and reduced. -/
structure Gematria where
  standard : Nat
  ordinal : Nat
  reduced : Nat
deriving Repr, DecidableEq

/-- One iteration of the for..of loop body of computeGreek over a normalized
code point: add the GREEK_VALUES entry to standard when present, and when a
GREEK_ORDINAL entry is present add it to ordinal and add its digit root to
reduced. -/
def computeStep (g : Gematria) (c : Char) : Gematria :=
  let g1 :=
    match tableLookup GREEK_VALUES c with
    | some v => { g with standard := g.standard + v }
    | none => g
  match tableLookup GREEK_ORDINAL c with
  | some v => { g1 with ordinal := g1.ordinal + v, reduced := g1.reduced + digitRoot v }
  | none => g1

/-- computeGreek from scripts/import.ts lines 95 to 124: normalize, then
fold the loop body over the normalized code points starting from zeros. -/
def computeGreek (text : List Char) : Gematria :=
  (normalizeGreek text).foldl computeStep { standard := 0, ordinal := 0, reduced := 0 }

/-- Verse-level aggregation from saveVerse, scripts/import.ts lines 337 to
348: fold over the words, adding each gematria record field-wise into the
running totals record (which starts empty, i.e. all fields 0). -/
def saveVerseTotals (ws : List Gematria) : Gematria :=
  ws.foldl
    (fun t w =>
      { standard := t.standard + w.standard,
        ordinal := t.ordinal + w.ordinal,
        reduced := t.reduced + w.reduced })
    { standard := 0, ordinal := 0, reduced := 0 }

/-- The word ἀρχῇ as it appears in the tests, with precomposed eta carrying
perispomeni and iota subscript (U+1FC7). -/
def archeSubscript : List Char := ['ἀ', 'ρ', 'χ', 'ῇ']

/-- The word ἀρχη with a plain unmarked eta. -/
def archePlain : List Char := ['ἀ', 'ρ', 'χ', 'η']

/-- The accented word λόγος (omicron with tonos, U+03CC), final sigma. -/
def logosAccented : List Char := ['λ', 'ό', 'γ', 'ο', 'ς']

/-- Per-character contribution to the reduced field: the digit root of the
ordinal value when the character has one, zero otherwise. -/
def reducedContribution (c : Char) : Nat :=
  match tableLookup GREEK_ORDINAL c with
  | some v => digitRoot v
  | none => 0

/-- Character class of the accent and breathing marks of claim C5: the
combining diacritical marks block without the iota subscript. -/
def isStrippable (c : Char) : Bool :=
  decide (0x300 ≤ c.toNat ∧ c.toNat ≤ 0x36F ∧ c.toNat ≠ 0x345)

/-- Characters left untouched by every stage of normalizeGreek: no canonical
decomposition, outside the combining-marks block, and no lowercase mapping. -/
def inert (c : Char) : Bool :=
  (tableLookup decompTable c).isNone && !(isCombining c) &&
    (tableLookup lowerTable c).isNone

/-- Occurrence count of a character in a list. -/
def countChar (a : Char) (l : List Char) : Nat := l.countP (fun c => decide (c = a))

/-- Claim C1: the word ἀρχῇ, whose eta carries the combining iota subscript,
scores standard 719; spelled with a plain eta it scores 709; the difference
is exactly 10, the GREEK_VALUES entry of iota. -/
theorem arche_iota_subscript_scores :
    (computeGreek archeSubscript).standard = 719 ∧
    (computeGreek archePlain).standard = 709 ∧
    (computeGreek archeSubscript).standard - (computeGreek archePlain).standard = 10 ∧
    tableLookup GREEK_VALUES 'ι' = some 10 := by decide

/-- Claim C2: the accented word λόγος scores standard 373, with letter
values λ = 30, ο = 70, γ = 3, ς = 200. -/
theorem logos_standard_373 :
    (computeGreek logosAccented).standard = 373 ∧
    tableLookup GREEK_VALUES 'λ' = some 30 ∧
    tableLookup GREEK_VALUES 'ο' = some 70 ∧
    tableLookup GREEK_VALUES 'γ' = some 3 ∧
    tableLookup GREEK_VALUES 'ς' = some 200 := by decide

/-- Claim C10: the archaic numeral letters stigma, koppa and sampi score 6,
90 and 900 in the standard field while contributing zero to the ordinal and
reduced fields, so a positive standard value does not imply a positive
ordinal value. -/
theorem archaic_numerals_standard_only :
    computeGreek ['ϛ'] = { standard := 6, ordinal := 0, reduced := 0 } ∧
    computeGreek ['ϟ'] = { standard := 90, ordinal := 0, reduced := 0 } ∧
    computeGreek ['ϡ'] = { standard := 900, ordinal := 0, reduced := 0 } ∧
    tableLookup GREEK_VALUES 'ϛ' = some 6 ∧
    tableLookup GREEK_VALUES 'ϟ' = some 90 ∧
    tableLookup GREEK_VALUES 'ϡ' = some 900 ∧
    tableLookup GREEK_ORDINAL 'ϛ' = none ∧
    tableLookup GREEK_ORDINAL 'ϟ' = none ∧
    tableLookup GREEK_ORDINAL 'ϡ' = none ∧
    (computeGreek ['ϛ']).standard > 0 ∧ (computeGreek ['ϛ']).ordinal = 0 := by decide

/-- Claim C9 counterexample: stigma is a key of the letter-value table but
not a key of the ordinal table, so not every key of the letter-value table
is a key of the ordinal table. -/
theorem values_key_without_ordinal :
    tableLookup GREEK_VALUES 'ϛ' = some 6 ∧
    tableLookup GREEK_ORDINAL 'ϛ' = none := by decide

/-- Claim C9 as amended: every key of the ordinal table is a key of the
letter-value table, every key of the letter-value table is a key of the
ordinal table or one of the three archaic numeral letters, the ordinal
table assigns positions in 1..24 covering every position, and the medial
and final sigma share ordinal 18. -/
theorem tables_key_structure :
    GREEK_ORDINAL.all (fun p => (tableLookup GREEK_VALUES p.1).isSome) = true ∧
    GREEK_VALUES.all
      (fun p => (tableLookup GREEK_ORDINAL p.1).isSome ||
        (p.1 == 'ϛ' || p.1 == 'ϟ' || p.1 == 'ϡ')) = true ∧
    GREEK_ORDINAL.all (fun p => decide (1 ≤ p.2 ∧ p.2 ≤ 24)) = true ∧
    (List.range 24).all
      (fun i => GREEK_ORDINAL.any (fun p => p.2 == i + 1)) = true ∧
    tableLookup GREEK_ORDINAL 'σ' = some 18 ∧
    tableLookup GREEK_ORDINAL 'ς' = some 18 := by decide

/-- Claim C8 counterexample: the character ό (U+03CC) is absent from both
tables, yet computeGreek on the one-character string does not return the
all-zero triple, because normalization first decomposes it to a plain
omicron. -/
theorem absent_key_nonzero_score :
    tableLookup GREEK_VALUES 'ό' = none ∧
    tableLookup GREEK_ORDINAL 'ό' = none ∧
    computeGreek ['ό'] ≠ { standard := 0, ordinal := 0, reduced := 0 } := by decide

theorem tableLookup_mem {α : Type} {T : List (Char × α)} {c : Char} {v : α}
    (h : tableLookup T c = some v) : (c, v) ∈ T := by
  induction T with
  | nil => simp [tableLookup] at h
  | cons p rest ih =>
    rw [tableLookup] at h
    split at h
    · rename_i heq
      cases h
      cases p
      simp_all
    · exact List.mem_cons_of_mem _ (ih h)

theorem nfd_nil : nfd [] = [] := rfl

theorem nfd_cons (c : Char) (t : List Char) : nfd (c :: t) = nfdChar c ++ nfd t := by
  simp [nfd]

theorem replaceIota_append (a b : List Char) :
    replaceIota (a ++ b) = replaceIota a ++ replaceIota b := by
  simp [replaceIota]

theorem stripMarks_append (a b : List Char) :
    stripMarks (a ++ b) = stripMarks a ++ stripMarks b := by
  simp [stripMarks]

theorem computeStep_reduced (g : Gematria) (c : Char) :
    (computeStep g c).reduced = g.reduced + reducedContribution c := by
  unfold computeStep reducedContribution
  cases tableLookup GREEK_VALUES c <;> cases tableLookup GREEK_ORDINAL c <;> simp

theorem foldl_computeStep_reduced (l : List Char) (g : Gematria) :
    (l.foldl computeStep g).reduced = g.reduced + (l.map reducedContribution).sum := by
  induction l generalizing g with
  | nil => simp
  | cons c t ih =>
    rw [List.foldl_cons, ih, List.map_cons, List.sum_cons, computeStep_reduced]
    omega

/-- Claim C3: for every input string, the reduced field of computeGreek is
the sum, over the normalized characters that have an ordinal entry, of the
digit root of that ordinal value, computed per character before
accumulation; and on every ordinal table value the digit-root loop lands in
1..9 and agrees with the value modulo 9, so it is the standard digital
root. -/
theorem reduced_is_per_char_digit_root :
    (∀ s : List Char,
      (computeGreek s).reduced = ((normalizeGreek s).map reducedContribution).sum) ∧
    GREEK_ORDINAL.all
      (fun p => decide (1 ≤ digitRoot p.2 ∧ digitRoot p.2 ≤ 9 ∧
        digitRoot p.2 % 9 = p.2 % 9)) = true := by
  constructor
  · intro s
    unfold computeGreek
    rw [foldl_computeStep_reduced]
    simp
  · decide

theorem foldl_addTotals (ws : List Gematria) (g : Gematria) :
    ws.foldl
      (fun t w =>
        { standard := t.standard + w.standard,
          ordinal := t.ordinal + w.ordinal,
          reduced := t.reduced + w.reduced })
      g =
      { standard := g.standard + (ws.map Gematria.standard).sum,
        ordinal := g.ordinal + (ws.map Gematria.ordinal).sum,
        reduced := g.reduced + (ws.map Gematria.reduced).sum } := by
  induction ws generalizing g with
  | nil => simp
  | cons w t ih =>
    rw [List.foldl_cons, ih]
    simp [Nat.add_assoc]

/-- Claim C4: for every list of word gematria records, the verse-level
aggregate of saveVerse is the field-wise sum of the per-word records. -/
theorem verse_totals_field_wise_sum (ws : List Gematria) :
    saveVerseTotals ws =
      { standard := (ws.map Gematria.standard).sum,
        ordinal := (ws.map Gematria.ordinal).sum,
        reduced := (ws.map Gematria.reduced).sum } := by
  unfold saveVerseTotals
  rw [foldl_addTotals]
  simp

theorem decomp_strippable_closed :
    decompTable.all (fun p => !(isStrippable p.1) || p.2.all isStrippable) = true := by
  decide

theorem strippable_combining {c : Char} (h : isStrippable c = true) :
    isCombining c = true := by
  unfold isStrippable at h
  unfold isCombining
  have h2 := of_decide_eq_true h
  exact decide_eq_true ⟨h2.1, h2.2.1⟩

theorem strippable_ne_iotaSub {c : Char} (h : isStrippable c = true) :
    c ≠ iotaSubscript := by
  unfold isStrippable at h
  have h2 := of_decide_eq_true h
  intro hc
  subst hc
  exact h2.2.2 (by decide)

theorem strippable_nfdChar {c : Char} (h : isStrippable c = true) :
    ∀ d ∈ nfdChar c, isStrippable d = true := by
  intro d hd
  unfold nfdChar at hd
  cases hl : tableLookup decompTable c with
  | none =>
    rw [hl] at hd
    simp at hd
    subst hd
    exact h
  | some l =>
    rw [hl] at hd
    simp at hd
    have hmem := tableLookup_mem hl
    have hall := List.all_eq_true.mp decomp_strippable_closed ⟨c, l⟩ hmem
    simp only [h, Bool.not_true, Bool.false_or] at hall
    exact List.all_eq_true.mp hall d hd

theorem strippable_vanishes (l : List Char)
    (h : ∀ d ∈ l, isStrippable d = true) :
    stripMarks (replaceIota l) = [] := by
  induction l with
  | nil => rfl
  | cons c t ih =>
    have hc := h c (List.mem_cons_self c t)
    have hne := strippable_ne_iotaSub hc
    have hcomb := strippable_combining hc
    simp only [replaceIota, List.map_cons, if_neg hne, stripMarks, List.filter_cons,
      hcomb, Bool.not_true]
    exact ih (fun d hd => h d (List.mem_cons_of_mem c hd))

theorem strip_replace_nfd_filter (v : List Char) :
    stripMarks (replaceIota (nfd v)) =
      stripMarks (replaceIota (nfd (v.filter (fun c => !(isStrippable c))))) := by
  induction v with
  | nil => rfl
  | cons c t ih =>
    rw [nfd_cons, replaceIota_append, stripMarks_append]
    cases hc : isStrippable c with
    | true =>
      rw [strippable_vanishes (nfdChar c) (strippable_nfdChar hc)]
      rw [List.filter_cons_of_neg (by simp [hc])]
      simpa using ih
    | false =>
      rw [List.filter_cons_of_pos (by simp [hc])]
      rw [nfd_cons, replaceIota_append, stripMarks_append, ih]

/-- Claim C5: layering any combination of combining marks from the block
U+0300..U+036F other than the iota subscript onto the letters of a base
word leaves all three gematria fields of computeGreek unchanged; a variant
is any string that yields the base word back when those marks are erased. -/
theorem accent_invariance (v b : List Char)
    (h : v.filter (fun c => !(isStrippable c)) = b) :
    computeGreek v = computeGreek b := by
  unfold computeGreek normalizeGreek
  rw [← h, ← strip_replace_nfd_filter]

/-- Witness for claim C5: the word λογος with an acute accent U+0301 layered
onto its omicron is a variant of the plain word, and both score alike. -/
theorem accent_invariance_witness :
    (['λ', 'ο', '́', 'γ', 'ο', 'ς'].filter (fun c => !(isStrippable c))
        = ['λ', 'ο', 'γ', 'ο', 'ς']) ∧
      computeGreek ['λ', 'ο', '́', 'γ', 'ο', 'ς']
        = computeGreek ['λ', 'ο', 'γ', 'ο', 'ς'] :=
  ⟨by decide, accent_invariance _ _ (by decide)⟩

theorem replaceIota_cons (c : Char) (t : List Char) :
    replaceIota (c :: t) = (if c = iotaSubscript then 'ι' else c) :: replaceIota t := by
  simp [replaceIota]

theorem stripMarks_cons (c : Char) (t : List Char) :
    stripMarks (c :: t) = if isCombining c then stripMarks t else c :: stripMarks t := by
  simp only [stripMarks, List.filter_cons]
  cases isCombining c <;> simp

theorem countChar_cons (a c : Char) (l : List Char) :
    countChar a (c :: l) = countChar a l + if c = a then 1 else 0 := by
  simp [countChar, List.countP_cons]

theorem strip_replace_count (l : List Char) :
    countChar 'ι' (stripMarks (replaceIota l)) =
      countChar 'ι' l + countChar iotaSubscript l := by
  induction l with
  | nil => rfl
  | cons c t ih =>
    rw [replaceIota_cons, countChar_cons, countChar_cons]
    by_cases h1 : c = iotaSubscript
    · rw [if_pos h1, stripMarks_cons]
      have hni : isCombining 'ι' = false := by decide
      rw [hni]
      simp only [Bool.false_eq_true, if_false]
      rw [countChar_cons, ih]
      have : c ≠ 'ι' := by rw [h1]; decide
      have hii : iotaSubscript ≠ 'ι' := by decide
      simp [this, h1, hii]
      omega
    · rw [if_neg h1, stripMarks_cons]
      cases h2 : isCombining c with
      | true =>
        simp only [if_true]
        have hci : c ≠ 'ι' := by
          intro hc
          rw [hc] at h2
          exact absurd h2 (by decide)
        rw [ih]
        simp [hci, h1]
      | false =>
        simp only [Bool.false_eq_true, if_false]
        rw [countChar_cons, ih]
        simp [h1]
        omega

theorem lower_values_not_combining :
    lowerTable.all (fun p => !(isCombining p.2)) = true := by decide

theorem lowerChar_not_combining {c : Char} (h : isCombining c = false) :
    isCombining (lowerChar c) = false := by
  unfold lowerChar
  cases hl : tableLookup lowerTable c with
  | none => simpa using h
  | some v =>
    have hmem := tableLookup_mem hl
    have := List.all_eq_true.mp lower_values_not_combining ⟨c, v⟩ hmem
    simpa using this

/-- Claim C6: normalizeGreek is NFD decomposition, then replacement of every
U+0345 by a plain iota, then the stripping of the combining-marks block,
then lowercasing, in that order; consequently no combining mark of the
block survives into the output, while every U+0345 of the decomposed text
survives the replace-then-strip passes as one extra iota. -/
theorem normalize_pipeline_order :
    (∀ s : List Char,
      normalizeGreek s = toLowerStr (stripMarks (replaceIota (nfd s)))) ∧
    (∀ s : List Char,
      (normalizeGreek s).all (fun c => !(isCombining c)) = true) ∧
    (∀ s : List Char,
      countChar 'ι' (stripMarks (replaceIota (nfd s))) =
        countChar 'ι' (nfd s) + countChar iotaSubscript (nfd s)) := by
  refine ⟨fun s => rfl, fun s => ?_, fun s => strip_replace_count (nfd s)⟩
  rw [List.all_eq_true]
  intro c hc
  unfold normalizeGreek toLowerStr at hc
  rw [List.mem_map] at hc
  obtain ⟨d, hd, rfl⟩ := hc
  unfold stripMarks at hd
  rw [List.mem_filter] at hd
  have : isCombining d = false := by simpa using hd.2
  simp [lowerChar_not_combining this]

theorem decomp_values_closed :
    decompTable.all
      (fun p => p.2.all (fun d => (tableLookup decompTable d).isNone)) = true := by
  decide

theorem lower_values_inert : lowerTable.all (fun p => inert p.2) = true := by decide

theorem nfdChar_decomp_free (c : Char) :
    ∀ e ∈ nfdChar c, (tableLookup decompTable e).isNone = true := by
  intro e he
  unfold nfdChar at he
  cases hl : tableLookup decompTable c with
  | none =>
    rw [hl] at he
    simp at he
    subst he
    simp [hl]
  | some l =>
    rw [hl] at he
    simp at he
    have hmem := tableLookup_mem hl
    have := List.all_eq_true.mp decomp_values_closed ⟨c, l⟩ hmem
    exact List.all_eq_true.mp this e he

theorem normalize_output_inert (s : List Char) :
    ∀ c ∈ normalizeGreek s, inert c = true := by
  intro c hc
  unfold normalizeGreek toLowerStr at hc
  rw [List.mem_map] at hc
  obtain ⟨d, hd, rfl⟩ := hc
  unfold stripMarks at hd
  rw [List.mem_filter] at hd
  obtain ⟨hd2, hdcomb⟩ := hd
  have hdcomb : isCombining d = false := by simpa using hdcomb
  unfold replaceIota at hd2
  rw [List.mem_map] at hd2
  obtain ⟨e, he, hrep⟩ := hd2
  by_cases hiota : e = iotaSubscript
  · rw [if_pos hiota] at hrep
    subst hrep
    have : lowerChar 'ι' = 'ι' := by decide
    rw [this]
    decide
  · rw [if_neg hiota] at hrep
    subst hrep
    have hfree : (tableLookup decompTable e).isNone = true := by
      unfold nfd at he
      rw [List.mem_flatten] at he
      obtain ⟨l, hl, hel⟩ := he
      rw [List.mem_map] at hl
      obtain ⟨x, _, rfl⟩ := hl
      exact nfdChar_decomp_free x e hel
    cases hlo : tableLookup lowerTable e with
    | some v =>
      have hv : lowerChar e = v := by unfold lowerChar; rw [hlo]; rfl
      rw [hv]
      exact List.all_eq_true.mp lower_values_inert ⟨e, v⟩ (tableLookup_mem hlo)
    | none =>
      have hv : lowerChar e = e := by unfold lowerChar; rw [hlo]; rfl
      rw [hv]
      unfold inert
      rw [hfree, hlo]
      simp [hdcomb]

theorem inert_normalize_fixed (l : List Char) (h : ∀ c ∈ l, inert c = true) :
    normalizeGreek l = l := by
  induction l with
  | nil => rfl
  | cons c t ih =>
    have hc := h c (List.mem_cons_self c t)
    unfold inert at hc
    rw [Bool.and_eq_true, Bool.and_eq_true] at hc
    obtain ⟨⟨h1, h2⟩, h3⟩ := hc
    have hdec : tableLookup decompTable c = none := by
      cases hx : tableLookup decompTable c
      · rfl
      · rw [hx] at h1; simp at h1
    have hcomb : isCombining c = false := by simpa using h2
    have hlo : tableLookup lowerTable c = none := by
      cases hx : tableLookup lowerTable c
      · rfl
      · rw [hx] at h3; simp at h3
    have hne : c ≠ iotaSubscript := by
      intro heq
      rw [heq] at hcomb
      exact absurd hcomb (by decide)
    have hstep : normalizeGreek (c :: t) = c :: normalizeGreek t := by
      unfold normalizeGreek
      rw [nfd_cons]
      have hn : nfdChar c = [c] := by unfold nfdChar; rw [hdec]; rfl
      rw [hn, List.singleton_append, replaceIota_cons, if_neg hne, stripMarks_cons, hcomb]
      simp only [Bool.false_eq_true, if_false]
      unfold toLowerStr
      rw [List.map_cons]
      have hlc : lowerChar c = c := by unfold lowerChar; rw [hlo]; rfl
      rw [hlc]
    rw [hstep, ih (fun d hd => h d (List.mem_cons_of_mem c hd))]

/-- Claim C7: normalizeGreek is idempotent on every input string. -/
theorem normalize_idempotent (s : List Char) :
    normalizeGreek (normalizeGreek s) = normalizeGreek s :=
  inert_normalize_fixed (normalizeGreek s) (normalize_output_inert s)

theorem computeStep_id {g : Gematria} {c : Char}
    (hv : tableLookup GREEK_VALUES c = none)
    (ho : tableLookup GREEK_ORDINAL c = none) :
    computeStep g c = g := by
  unfold computeStep
  rw [hv, ho]

theorem foldl_computeStep_id (l : List Char)
    (h : l.all
      (fun c => (tableLookup GREEK_VALUES c).isNone &&
        (tableLookup GREEK_ORDINAL c).isNone) = true)
    (g : Gematria) : l.foldl computeStep g = g := by
  induction l generalizing g with
  | nil => rfl
  | cons c t ih =>
    rw [List.all_cons, Bool.and_eq_true] at h
    obtain ⟨hc, ht⟩ := h
    rw [Bool.and_eq_true] at hc
    have hv : tableLookup GREEK_VALUES c = none := by
      cases hx : tableLookup GREEK_VALUES c
      · rfl
      · rw [hx] at hc; simp at hc
    have ho : tableLookup GREEK_ORDINAL c = none := by
      cases hx : tableLookup GREEK_ORDINAL c
      · rfl
      · rw [hx] at hc; simp at hc
    rw [List.foldl_cons, computeStep_id hv ho]
    exact ih ht g

/-- Claim C8 as amended: computeGreek of the empty string is the all-zero
triple, and every string whose normalized form contains only characters
absent from both tables (in particular any string of punctuation, spaces or
foreign characters that normalization does not fold into a Greek letter)
also yields the all-zero triple; no input is an error. -/
theorem empty_and_nonletters_zero :
    computeGreek [] = { standard := 0, ordinal := 0, reduced := 0 } ∧
    ∀ s : List Char,
      (normalizeGreek s).all
        (fun c => (tableLookup GREEK_VALUES c).isNone &&
          (tableLookup GREEK_ORDINAL c).isNone) = true →
      computeGreek s = { standard := 0, ordinal := 0, reduced := 0 } := by
  constructor
  · rfl
  · intro s h
    unfold computeGreek
    exact foldl_computeStep_id _ h _

/-- Witness for claim C8: a string of a space, a comma and a period
satisfies the hypothesis and scores all zeros. -/
theorem empty_and_nonletters_zero_witness :
    ((normalizeGreek [' ', ',', '.']).all
        (fun c => (tableLookup GREEK_VALUES c).isNone &&
          (tableLookup GREEK_ORDINAL c).isNone) = true) ∧
      computeGreek [' ', ',', '.'] = { standard := 0, ordinal := 0, reduced := 0 } :=
  ⟨by decide, empty_and_nonletters_zero.2 _ (by decide)⟩

end StepBibleTR
